import Mathlib

/-!
Verification of the `lock_contention` repository.

The repository has two source files:

* `src/poisson_process.rs` — pure `f64` arithmetic (`rate`,
  `prob_of_one_event_within_next`) and the inverse-CDF sampler
  `duration_until_next_event`.  These are modelled over `ℝ`; the random
  draw `rng.gen_range(0. ..1.)` becomes an explicit parameter `r` with
  `0 ≤ r < 1`.

* `src/lock_emulation.rs` — the lock-toggling benchmark loop
  (`toggle_lock`) and its multi-thread orchestrator
  (`toggle_lock_parallel`).  These are modelled as a fueled,
  oracle-driven state machine: the wall-clock readings
  (`start.elapsed()`), the sampled intervals and the possible poisoning
  of the mutex are input streams, and the loop additionally emits an
  event trace so that ordering and lock-discipline properties can be
  stated.
-/

namespace LockContention

/-! ### Real-valued model of `src/poisson_process.rs` -/

/-- The constant `std::f64::consts::E`, modelled as the real number `e`. -/
noncomputable def E : ℝ := Real.exp 1

/-- Rust `rate(events, time_duration) = events / time_duration`. -/
noncomputable def rate (events time_duration : ℝ) : ℝ := events / time_duration

/-- Rust `prob_of_one_event_within_next(duration, lambda) = 1. - E.powf(-lambda * duration)`. -/
noncomputable def prob_of_one_event_within_next (duration lambda : ℝ) : ℝ :=
  1 - E ^ (-lambda * duration)

/-- Rust `duration_until_next_event(lambda)`: with `r` the value produced by
`rng.gen_range(0. ..1.)`, the code forms `uniform_rv = 1. - r` and returns
`-(uniform_rv.ln()) / lambda`. -/
noncomputable def duration_until_next_event (lambda r : ℝ) : ℝ :=
  -Real.log (1 - r) / lambda

/-! ### Oracle-driven model of `src/lock_emulation.rs`

The loop is driven by input streams: `elapsed n` is the `start.elapsed()`
reading (in nanoseconds) at the top of iteration `n`, `su n` / `sl n` are the
values `duration_until_next_event` would return at iteration `n` for
`lambda_unlock` / `lambda_lock`, and `pois n` tells whether the mutex is
poisoned when iteration `n` tries to lock it.  The run is fueled; `noFuel`
stands for a loop that has not yet terminated within the observed window. -/

/-- Events emitted by one run of the `toggle_lock` loop, in program order. -/
inductive Ev where
  | timeCheck (a : ℕ) (e : ℕ)
  | draw (unlock : Bool) (t : ℕ)
  | incr (t : ℕ)
  | acquire
  | work
  | setAction (a : ℕ)
  | release
deriving DecidableEq

/-- Outcome of a fueled run: normal return, a panic (from `unwrap` on a
poisoned lock or on a failed join), the `unreachable!()` arm, or fuel
exhaustion. -/
inductive RunRes (α : Type) where
  | ok (r : α)
  | fault
  | unreach
  | noFuel
deriving DecidableEq

/-- Rust `(s + 0.5) as usize`: truncation toward zero saturating at `0`,
which for `s + 0.5 ≥ 0` is the floor and for `s + 0.5 < 0` is `0`. -/
def intervalTasks (s : ℚ) : ℕ := (⌊s + 1 / 2⌋).toNat

/-- Events of the `action == 0` arm: draw, add to `tasks_done`, lock, do the
burst, set `action = 1`, then the guard drops at the end of the arm. -/
def holdingBlock (t : ℕ) : List Ev :=
  Ev.draw true t :: Ev.incr t :: Ev.acquire ::
    (List.replicate t Ev.work ++ [Ev.setAction 1, Ev.release])

/-- Events of the `action == 1` arm: draw, add to `tasks_done`, do the burst
without the lock, set `action = 0`. -/
def releasedBlock (t : ℕ) : List Ev :=
  Ev.draw false t :: Ev.incr t :: (List.replicate t Ev.work ++ [Ev.setAction 0])

/-- The body of Rust `toggle_lock`, with explicit loop counter `n`,
accumulator `acc` (`tasks_done`) and phase `a` (`action`). -/
def toggleLockAux (elapsed : ℕ → ℕ) (su sl : ℕ → ℚ) (pois : ℕ → Bool)
    (limit : ℕ) : ℕ → ℕ → ℕ → ℕ → RunRes (ℕ × ℕ × List Ev)
  | 0, _, _, _ => .noFuel
  | fuel + 1, n, acc, a =>
    if limit < elapsed n then .ok (acc, elapsed n, [Ev.timeCheck a (elapsed n)])
    else
      match a with
      | 0 =>
        if pois n then .fault
        else
          match toggleLockAux elapsed su sl pois limit fuel (n + 1)
              (acc + intervalTasks (su n)) 1 with
          | .ok (w, e, tr) =>
            .ok (w, e,
              Ev.timeCheck 0 (elapsed n) :: (holdingBlock (intervalTasks (su n)) ++ tr))
          | r => r
      | 1 =>
        match toggleLockAux elapsed su sl pois limit fuel (n + 1)
            (acc + intervalTasks (sl n)) 0 with
        | .ok (w, e, tr) =>
          .ok (w, e,
            Ev.timeCheck 1 (elapsed n) :: (releasedBlock (intervalTasks (sl n)) ++ tr))
        | r => r
      | _ => .unreach

/-- Rust `toggle_lock`: the loop starts at iteration `0` with
`tasks_done = 0` and `action = 0`. -/
def toggle_lock (elapsed : ℕ → ℕ) (su sl : ℕ → ℚ) (pois : ℕ → Bool)
    (limit fuel : ℕ) : RunRes (ℕ × ℕ × List Ev) :=
  toggleLockAux elapsed su sl pois limit fuel 0 0 0

/-- The observable result of `toggle_lock`: the `(tasks_done, elapsed)` pair. -/
def toggleLockRes (elapsed : ℕ → ℕ) (su sl : ℕ → ℚ) (pois : ℕ → Bool)
    (limit fuel : ℕ) : RunRes (ℕ × ℕ) :=
  match toggle_lock elapsed su sl pois limit fuel with
  | .ok (w, e, _) => .ok (w, e)
  | .fault => .fault
  | .unreach => .unreach
  | .noFuel => .noFuel

/-- Rust `handles.into_iter().map(|h| h.join().unwrap()).collect::<Vec<_>>()`:
joins in spawn order, propagating the first failure. -/
def joinAll {α : Type} : List (RunRes α) → RunRes (List α)
  | [] => .ok []
  | .ok r :: rest =>
    match joinAll rest with
    | .ok l => .ok (r :: l)
    | .fault => .fault
    | .unreach => .unreach
    | .noFuel => .noFuel
  | .fault :: _ => .fault
  | .unreach :: _ => .unreach
  | .noFuel :: _ => .noFuel

/-- Rust `toggle_lock_parallel`: each of the `threads` workers runs
`toggle_lock` with its own oracle family, and the results are joined. -/
def toggle_lock_parallel (elapsed : ℕ → ℕ → ℕ) (su sl : ℕ → ℕ → ℚ)
    (pois : ℕ → ℕ → Bool) (limit fuel threads : ℕ) : RunRes (List (ℕ × ℕ)) :=
  joinAll ((List.range threads).map fun i =>
    toggleLockRes (elapsed i) (su i) (sl i) (pois i) limit fuel)

/-- Total work accumulated by `k` consecutive phases starting at iteration
`n` in phase `a` (`0` = Holding, drawing from `su`; `1` = Released, drawing
from `sl`). -/
def workSum (su sl : ℕ → ℚ) : ℕ → ℕ → ℕ → ℕ
  | _, _, 0 => 0
  | n, a, k + 1 =>
    intervalTasks (if a = 0 then su n else sl n) + workSum su sl (n + 1) ((a + 1) % 2) k

/-- Modelled from the spec: the Holding-phase event order that §4.2 of the
spec asserts — acquire the lock, then draw the task count, then perform the
work burst, then increment the counter, then transition, the scoped guard
dropping at the end of the arm. -/
def specHoldingBlock (t : ℕ) : List Ev :=
  Ev.acquire :: Ev.draw true t ::
    (List.replicate t Ev.work ++ [Ev.incr t, Ev.setAction 1, Ev.release])

/-- Scan a trace tracking whether the lock is held and the phase recorded by
the last budget check.  It accepts iff the lock is never held at a budget
check (an iteration boundary), every acquisition happens un-nested and in a
Holding phase, every release matches a held lock, no Released-phase event
happens while the lock is held, and the lock is free at the end. -/
def lockScan : List Ev → Bool → ℕ → Bool
  | [], held, _ => !held
  | Ev.timeCheck a _ :: tr, held, _ => !held && lockScan tr held a
  | Ev.acquire :: tr, held, p => !held && (p == 0) && lockScan tr true p
  | Ev.release :: tr, held, p => held && lockScan tr false p
  | Ev.work :: tr, held, p => (p == 0 || !held) && lockScan tr held p
  | Ev.draw _ _ :: tr, held, p => (p == 0 || !held) && lockScan tr held p
  | Ev.incr _ :: tr, held, p => (p == 0 || !held) && lockScan tr held p
  | Ev.setAction _ :: tr, held, p => lockScan tr held p

/-- The `powf` call on the base `E` is the real exponential. -/
theorem prob_eq_exp (duration lambda : ℝ) :
    prob_of_one_event_within_next duration lambda = 1 - Real.exp (-lambda * duration) := by
  rw [prob_of_one_event_within_next, E, Real.exp_one_rpow]

/-- C1: the sampler uses `u = 1 - r ∈ (0, 1]` (never `0`), returns `-ln u / λ`,
and the result is non-negative for every `λ > 0`. -/
theorem duration_until_next_event_nonneg (lambda r : ℝ)
    (hl : 0 < lambda) (hr0 : 0 ≤ r) (hr1 : r < 1) :
    (0 < 1 - r ∧ 1 - r ≤ 1) ∧
      duration_until_next_event lambda r = -Real.log (1 - r) / lambda ∧
      0 ≤ duration_until_next_event lambda r := by
  have hu0 : 0 < 1 - r := by linarith
  have hu1 : 1 - r ≤ 1 := by linarith
  refine ⟨⟨hu0, hu1⟩, rfl, ?_⟩
  have hlog : Real.log (1 - r) ≤ 0 := Real.log_nonpos (le_of_lt hu0) hu1
  have : 0 ≤ -Real.log (1 - r) := by linarith
  exact div_nonneg this (le_of_lt hl)

/-- C1 witness at `λ = 2`, `r = 1/2`. -/
theorem duration_until_next_event_nonneg_witness :
    (0 < (2 : ℝ) ∧ 0 ≤ (1 / 2 : ℝ) ∧ (1 / 2 : ℝ) < 1) ∧
      ((0 < 1 - (1 / 2 : ℝ) ∧ 1 - (1 / 2 : ℝ) ≤ 1) ∧
        duration_until_next_event 2 (1 / 2) = -Real.log (1 - 1 / 2) / 2 ∧
        0 ≤ duration_until_next_event 2 (1 / 2)) :=
  ⟨⟨by norm_num, by norm_num, by norm_num⟩,
    duration_until_next_event_nonneg 2 (1 / 2) (by norm_num) (by norm_num) (by norm_num)⟩

/-- C5: for `horizon ≥ 0` and `λ > 0` the probability lies in `[0, 1)`,
is monotone in the horizon, and vanishes at horizon `0`. -/
theorem prob_range_monotone_zero (horizon lambda : ℝ)
    (hh : 0 ≤ horizon) (hl : 0 < lambda) :
    (0 ≤ prob_of_one_event_within_next horizon lambda ∧
        prob_of_one_event_within_next horizon lambda < 1) ∧
      (∀ h2 : ℝ, horizon ≤ h2 →
        prob_of_one_event_within_next horizon lambda ≤
          prob_of_one_event_within_next h2 lambda) ∧
      prob_of_one_event_within_next 0 lambda = 0 := by
  refine ⟨⟨?_, ?_⟩, ?_, ?_⟩
  · rw [prob_eq_exp]
    have harg : -lambda * horizon ≤ 0 := by nlinarith
    have : Real.exp (-lambda * horizon) ≤ 1 := by
      calc Real.exp (-lambda * horizon) ≤ Real.exp 0 := Real.exp_le_exp.mpr harg
        _ = 1 := Real.exp_zero
    linarith
  · rw [prob_eq_exp]
    have : 0 < Real.exp (-lambda * horizon) := Real.exp_pos _
    linarith
  · intro h2 hle
    rw [prob_eq_exp, prob_eq_exp]
    have harg : -lambda * h2 ≤ -lambda * horizon := by nlinarith
    have := Real.exp_le_exp.mpr harg
    linarith
  · rw [prob_eq_exp]
    simp

/-- C5 witness at `horizon = 1`, `λ = 1`. -/
theorem prob_range_monotone_zero_witness :
    (0 ≤ (1 : ℝ) ∧ 0 < (1 : ℝ)) ∧
      ((0 ≤ prob_of_one_event_within_next 1 1 ∧
          prob_of_one_event_within_next 1 1 < 1) ∧
        (∀ h2 : ℝ, (1 : ℝ) ≤ h2 →
          prob_of_one_event_within_next 1 1 ≤ prob_of_one_event_within_next h2 1) ∧
        prob_of_one_event_within_next 0 1 = 0) :=
  ⟨⟨by norm_num, by norm_num⟩,
    prob_range_monotone_zero 1 1 (by norm_num) (by norm_num)⟩

/-! ### Numeric brackets on the exponential, for the concrete CDF checks -/
lemma exp_neg_one_div_forty :
    (0.9752 : ℝ) < Real.exp (-(1 / 40)) ∧ Real.exp (-(1 / 40)) < 0.9754 := by
  have hx : |(-(1 / 40) : ℝ)| ≤ 1 := by
    rw [abs_neg, abs_of_nonneg] <;> norm_num
  have h := Real.exp_bound hx (n := 3) (by norm_num)
  rw [abs_le] at h
  obtain ⟨h1, h2⟩ := h
  rw [Finset.sum_range_succ, Finset.sum_range_succ, Finset.sum_range_succ,
    Finset.sum_range_zero, abs_neg, abs_of_nonneg (by norm_num : (0 : ℝ) ≤ 1 / 40)]
    at h1 h2
  norm_num [Nat.factorial] at h1 h2
  constructor <;> linarith

lemma exp_neg_one_quarter :
    (0.778 : ℝ) < Real.exp (-(1 / 4)) ∧ Real.exp (-(1 / 4)) < 0.780 := by
  have hx : |(-(1 / 4) : ℝ)| ≤ 1 := by
    rw [abs_neg, abs_of_nonneg] <;> norm_num
  have h := Real.exp_bound hx (n := 4) (by norm_num)
  rw [abs_le] at h
  obtain ⟨h1, h2⟩ := h
  rw [Finset.sum_range_succ, Finset.sum_range_succ, Finset.sum_range_succ,
    Finset.sum_range_succ, Finset.sum_range_zero, abs_neg,
    abs_of_nonneg (by norm_num : (0 : ℝ) ≤ 1 / 4)] at h1 h2
  norm_num [Nat.factorial] at h1 h2
  constructor <;> linarith

lemma exp_neg_one_bounds :
    (0.3678 : ℝ) < Real.exp (-1) ∧ Real.exp (-1) < 0.3679 := by
  have hp : (0 : ℝ) < Real.exp 1 := Real.exp_pos 1
  have hgt := Real.exp_one_gt_d9
  have hlt := Real.exp_one_lt_d9
  have hinv : Real.exp 1 * (Real.exp 1)⁻¹ = 1 := mul_inv_cancel₀ (ne_of_gt hp)
  have hinvpos : (0 : ℝ) < (Real.exp 1)⁻¹ := inv_pos.mpr hp
  rw [Real.exp_neg]
  constructor <;> nlinarith

lemma exp_neg_06095 :
    (0.5436 : ℝ) < Real.exp (-(1219 / 2000)) ∧ Real.exp (-(1219 / 2000)) < 0.5437 := by
  have hx : |(-(1219 / 2000) : ℝ)| ≤ 1 := by
    rw [abs_neg, abs_of_nonneg] <;> norm_num
  have h := Real.exp_bound hx (n := 7) (by norm_num)
  rw [abs_le] at h
  obtain ⟨h1, h2⟩ := h
  rw [Finset.sum_range_succ, Finset.sum_range_succ, Finset.sum_range_succ,
    Finset.sum_range_succ, Finset.sum_range_succ, Finset.sum_range_succ,
    Finset.sum_range_succ, Finset.sum_range_zero, abs_neg,
    abs_of_nonneg (by norm_num : (0 : ℝ) ≤ 1219 / 2000)] at h1 h2
  norm_num [Nat.factorial] at h1 h2
  constructor <;> linarith

lemma exp_neg_16095 :
    (0.1999 : ℝ) < Real.exp (-(3219 / 2000)) ∧ Real.exp (-(3219 / 2000)) < 0.2001 := by
  have hsplit : (-(3219 / 2000) : ℝ) = -1 + -(1219 / 2000) := by norm_num
  rw [hsplit, Real.exp_add]
  obtain ⟨ha1, ha2⟩ := exp_neg_one_bounds
  obtain ⟨hb1, hb2⟩ := exp_neg_06095
  constructor <;> nlinarith

/-- C4: the probability function is the exponential CDF `1 − e^(−λ·horizon)`,
and with `λ = rate 1 2400 = 1/2400` it takes the concrete values the tests
assert, within the stated tolerances. -/
theorem prob_formula_and_values :
    (∀ duration lambda : ℝ,
        prob_of_one_event_within_next duration lambda =
          1 - Real.exp (-lambda * duration)) ∧
      |prob_of_one_event_within_next 60 (rate 1 2400) - 0.0247| < 0.0001 ∧
      |prob_of_one_event_within_next 600 (rate 1 2400) - 0.221| < 0.001 ∧
      |prob_of_one_event_within_next 2400 (rate 1 2400) - 0.632| < 0.001 ∧
      |prob_of_one_event_within_next 3862.8 (rate 1 2400) - 0.8| < 0.001 := by
  refine ⟨prob_eq_exp, ?_, ?_, ?_, ?_⟩
  · rw [prob_eq_exp, show -(rate 1 2400) * 60 = (-(1 / 40) : ℝ) by rw [rate]; norm_num]
    obtain ⟨h1, h2⟩ := exp_neg_one_div_forty
    rw [abs_lt]
    constructor <;> nlinarith
  · rw [prob_eq_exp, show -(rate 1 2400) * 600 = (-(1 / 4) : ℝ) by rw [rate]; norm_num]
    obtain ⟨h1, h2⟩ := exp_neg_one_quarter
    rw [abs_lt]
    constructor <;> nlinarith
  · rw [prob_eq_exp, show -(rate 1 2400) * 2400 = (-1 : ℝ) by rw [rate]; norm_num]
    obtain ⟨h1, h2⟩ := exp_neg_one_bounds
    rw [abs_lt]
    constructor <;> nlinarith
  · rw [prob_eq_exp,
      show -(rate 1 2400) * 3862.8 = (-(3219 / 2000) : ℝ) by rw [rate]; norm_num]
    obtain ⟨h1, h2⟩ := exp_neg_16095
    rw [abs_lt]
    constructor <;> nlinarith

lemma intervalTasks_zero : intervalTasks 0 = 0 := by norm_num [intervalTasks]

/-- C3: the per-phase task count is `⌊sample + 0.5⌋` (round half up), a
sample in `[0, 1/2)` yields zero tasks, and a run whose phases all draw zero
tasks still returns normally. -/
theorem tasks_round_half_up (q : ℚ) (hq : 0 ≤ q) :
    (intervalTasks q : ℤ) = ⌊q + 1 / 2⌋ ∧
      (q < 1 / 2 → intervalTasks q = 0) ∧
      ∃ tr, toggle_lock (fun n => n) (fun _ => 0) (fun _ => 0) (fun _ => false) 1 3 =
        RunRes.ok (0, 2, tr) := by
  refine ⟨?_, ?_, ?_⟩
  · have h0 : (0 : ℤ) ≤ ⌊q + 1 / 2⌋ := by
      apply Int.floor_nonneg.mpr
      linarith
    exact Int.toNat_of_nonneg h0
  · intro hq2
    have : ⌊q + 1 / 2⌋ = 0 := by
      apply Int.floor_eq_zero_iff.mpr
      constructor
      · linarith
      · linarith
    rw [intervalTasks, this]
    rfl
  · refine ⟨[Ev.timeCheck 0 0, Ev.draw true 0, Ev.incr 0, Ev.acquire, Ev.setAction 1,
      Ev.release, Ev.timeCheck 1 1, Ev.draw false 0, Ev.incr 0, Ev.setAction 0,
      Ev.timeCheck 0 2], ?_⟩
    simp [toggle_lock, toggleLockAux, intervalTasks_zero, holdingBlock, releasedBlock]

/-- C3 witness at `q = 1/4`. -/
theorem tasks_round_half_up_witness :
    (0 ≤ (1 / 4 : ℚ)) ∧
      ((intervalTasks (1 / 4) : ℤ) = ⌊(1 / 4 : ℚ) + 1 / 2⌋ ∧
        ((1 / 4 : ℚ) < 1 / 2 → intervalTasks (1 / 4) = 0) ∧
        ∃ tr, toggle_lock (fun n => n) (fun _ => 0) (fun _ => 0) (fun _ => false) 1 3 =
          RunRes.ok (0, 2, tr)) :=
  ⟨by norm_num, tasks_round_half_up (1 / 4) (by norm_num)⟩

/-- A run with an un-poisoned lock, whose budget check first fails at offset
`k`, returns normally with the accumulated work and that elapsed reading. -/
lemma toggleLockAux_ok (elapsed : ℕ → ℕ) (su sl : ℕ → ℚ) (limit : ℕ) :
    ∀ k fuel n acc a : ℕ, (a = 0 ∨ a = 1) → k < fuel →
      limit < elapsed (n + k) → (∀ j, j < k → elapsed (n + j) ≤ limit) →
      ∃ tr, toggleLockAux elapsed su sl (fun _ => false) limit fuel n acc a =
        RunRes.ok (acc + workSum su sl n a k, elapsed (n + k), tr) := by
  intro k
  induction k with
  | zero =>
    intro fuel n acc a _ hk hlt _
    obtain ⟨fuel', rfl⟩ : ∃ f, fuel = f + 1 := ⟨fuel - 1, by omega⟩
    have hlt' : limit < elapsed n := by simpa using hlt
    refine ⟨[Ev.timeCheck a (elapsed n)], ?_⟩
    simp only [toggleLockAux]
    rw [if_pos hlt']
    simp [workSum]
  | succ k ih =>
    intro fuel n acc a ha hk hlt hbelow
    obtain ⟨fuel', rfl⟩ : ∃ f, fuel = f + 1 := ⟨fuel - 1, by omega⟩
    have h0 : ¬ limit < elapsed n := by
      have := hbelow 0 (Nat.succ_pos k)
      simpa using Nat.not_lt.mpr (by simpa using this)
    have hlt' : limit < elapsed (n + 1 + k) := by
      have e : n + 1 + k = n + (k + 1) := by omega
      rw [e]; exact hlt
    have hbelow' : ∀ j, j < k → elapsed (n + 1 + j) ≤ limit := by
      intro j hj
      have e : n + 1 + j = n + (j + 1) := by omega
      rw [e]; exact hbelow (j + 1) (by omega)
    have eidx : n + 1 + k = n + (k + 1) := by omega
    rcases ha with rfl | rfl
    · obtain ⟨tr', htr'⟩ := ih fuel' (n + 1) (acc + intervalTasks (su n)) 1
        (Or.inr rfl) (by omega) hlt' hbelow'
      rw [eidx] at htr'
      refine ⟨Ev.timeCheck 0 (elapsed n) ::
        (holdingBlock (intervalTasks (su n)) ++ tr'), ?_⟩
      simp only [toggleLockAux]
      rw [if_neg h0]
      simp only [htr']
      simp [workSum]
      omega
    · obtain ⟨tr', htr'⟩ := ih fuel' (n + 1) (acc + intervalTasks (sl n)) 0
        (Or.inl rfl) (by omega) hlt' hbelow'
      rw [eidx] at htr'
      refine ⟨Ev.timeCheck 1 (elapsed n) ::
        (releasedBlock (intervalTasks (sl n)) ++ tr'), ?_⟩
      simp only [toggleLockAux]
      rw [if_neg h0]
      simp only [htr']
      simp [workSum]
      omega

/-- C2: as soon as some wall-clock reading exceeds the budget, the loop
terminates: it returns normally at the first iteration `M` whose budget
check fails, with the work counter accumulated over the `M` completed phases
(a natural number, hence `≥ 0`) and the actual elapsed reading, which is
strictly above (hence at least) the budget. -/
theorem toggle_lock_terminates (elapsed : ℕ → ℕ) (su sl : ℕ → ℚ) (limit N : ℕ)
    (hN : limit < elapsed N) :
    ∃ M, M ≤ N ∧ (∀ j, j < M → elapsed j ≤ limit) ∧ limit < elapsed M ∧
      ∃ tr, toggle_lock elapsed su sl (fun _ => false) limit (N + 1) =
        RunRes.ok (workSum su sl 0 0 M, elapsed M, tr) := by
  have hex : ∃ n, limit < elapsed n := ⟨N, hN⟩
  set M := Nat.find hex with hM
  have hMN : M ≤ N := Nat.find_min' hex hN
  have hMlt : limit < elapsed M := Nat.find_spec hex
  have hMbelow : ∀ j, j < M → elapsed j ≤ limit := by
    intro j hj
    exact Nat.not_lt.mp (Nat.find_min hex hj)
  obtain ⟨tr, htr⟩ := toggleLockAux_ok elapsed su sl limit M (N + 1) 0 0 0
    (Or.inl rfl) (by omega) (by simpa using hMlt) (by simpa using hMbelow)
  refine ⟨M, hMN, hMbelow, hMlt, tr, ?_⟩
  rw [toggle_lock, htr]
  simp

/-- C2 witness: readings `elapsed n = n`, budget `1`, first failing check at
iteration `2`. -/
theorem toggle_lock_terminates_witness :
    (1 < (fun n : ℕ => n) 2) ∧
      (∃ M, M ≤ 2 ∧ (∀ j, j < M → (fun n : ℕ => n) j ≤ 1) ∧
        1 < (fun n : ℕ => n) M ∧
        ∃ tr, toggle_lock (fun n => n) (fun _ => 0) (fun _ => 0) (fun _ => false) 1 3 =
          RunRes.ok (workSum (fun _ => 0) (fun _ => 0) 0 0 M, (fun n : ℕ => n) M, tr)) :=
  ⟨by norm_num,
    toggle_lock_terminates (fun n => n) (fun _ => 0) (fun _ => 0) 1 2 (by norm_num)⟩

lemma joinAll_map_ok {α β : Type} (l : List β) (f : β → RunRes α) (g : β → α)
    (h : ∀ x ∈ l, f x = RunRes.ok (g x)) :
    joinAll (l.map f) = RunRes.ok (l.map g) := by
  induction l with
  | nil => rfl
  | cons x xs ih =>
    simp only [List.map_cons]
    rw [h x (by simp), joinAll, ih (fun y hy => h y (by simp [hy]))]

lemma joinAll_eq_ok {α : Type} :
    ∀ (rs : List (RunRes α)) (out : List α),
      joinAll rs = RunRes.ok out → rs = out.map RunRes.ok := by
  intro rs
  induction rs with
  | nil =>
    intro out h
    rw [joinAll] at h
    cases h
    rfl
  | cons r rest ih =>
    intro out h
    cases r with
    | ok x =>
      rw [joinAll] at h
      cases hrest : joinAll rest with
      | ok l =>
        rw [hrest] at h
        cases h
        simp [ih l hrest]
      | fault => rw [hrest] at h; cases h
      | unreach => rw [hrest] at h; cases h
      | noFuel => rw [hrest] at h; cases h
    | fault => rw [joinAll] at h; cases h
    | unreach => rw [joinAll] at h; cases h
    | noFuel => rw [joinAll] at h; cases h

/-- C6: if every one of the `threads ≥ 1` workers completes normally, worker
`i` with result `v i`, the orchestrator returns exactly the list of all
`threads` per-thread results, one per thread in spawn order. -/
theorem toggle_lock_parallel_results (elapsed : ℕ → ℕ → ℕ) (su sl : ℕ → ℕ → ℚ)
    (pois : ℕ → ℕ → Bool) (limit fuel threads : ℕ) (v : ℕ → ℕ × ℕ)
    (_hT : 1 ≤ threads)
    (h : ∀ i, i < threads →
      toggleLockRes (elapsed i) (su i) (sl i) (pois i) limit fuel =
        RunRes.ok (v i)) :
    toggle_lock_parallel elapsed su sl pois limit fuel threads =
        RunRes.ok ((List.range threads).map v) ∧
      ((List.range threads).map v).length = threads := by
  constructor
  · rw [toggle_lock_parallel]
    exact joinAll_map_ok _ _ _ (fun i hi => h i (List.mem_range.mp hi))
  · simp

/-- C6 witness with two threads, each finishing at reading `2` with no work. -/
theorem toggle_lock_parallel_results_witness :
    (1 ≤ 2) ∧
      (toggle_lock_parallel (fun _ n => n) (fun _ _ => 0) (fun _ _ => 0)
          (fun _ _ => false) 1 3 2 =
        RunRes.ok ((List.range 2).map fun _ => ((0 : ℕ), (2 : ℕ))) ∧
      ((List.range 2).map fun _ => ((0 : ℕ), (2 : ℕ))).length = 2) :=
  ⟨by norm_num,
    toggle_lock_parallel_results (fun _ n => n) (fun _ _ => 0) (fun _ _ => 0)
      (fun _ _ => false) 1 3 2 (fun _ => (0, 2)) (by norm_num)
      (fun i _ => by
        simp [toggleLockRes, toggle_lock, toggleLockAux, intervalTasks_zero])⟩

/-- C8: a normal return of the orchestrator accounts for every worker — the
sequence has one entry per thread and each worker returned normally with
exactly that entry, so a failed worker is never silently dropped — and a
worker that reaches a Holding-phase lock acquisition on a poisoned lock
makes its whole run fail rather than recover. -/
theorem failures_propagate (elapsed : ℕ → ℕ → ℕ) (su sl : ℕ → ℕ → ℚ)
    (pois : ℕ → ℕ → Bool) (limit fuel threads : ℕ) (l : List (ℕ × ℕ)) :
    (toggle_lock_parallel elapsed su sl pois limit fuel threads = RunRes.ok l →
      l.length = threads ∧ ∀ i, i < threads →
        toggleLockRes (elapsed i) (su i) (sl i) (pois i) limit fuel =
          RunRes.ok (l.getD i (0, 0))) ∧
    (∀ (el : ℕ → ℕ) (u v : ℕ → ℚ) (p : ℕ → Bool) (n acc f1 : ℕ),
      el n ≤ limit → p n = true →
      toggleLockAux el u v p limit (f1 + 1) n acc 0 = RunRes.fault) := by
  constructor
  · intro h
    rw [toggle_lock_parallel] at h
    have hmap := joinAll_eq_ok _ _ h
    have hlen : l.length = threads := by
      have := congrArg List.length hmap
      simpa using this.symm
    refine ⟨hlen, ?_⟩
    intro i hi
    have hi' : i < ((List.range threads).map fun j =>
        toggleLockRes (elapsed j) (su j) (sl j) (pois j) limit fuel).length := by
      simpa using hi
    have hgl : i < l.length := by omega
    have := congrArg (fun t => t.getD i RunRes.fault) hmap
    simp only [List.getD_eq_getElem?_getD, List.getElem?_map, List.getElem?_range,
      hi, List.getElem?_eq_getElem hgl] at this
    simp at this
    rw [this]
    simp only [List.getD_eq_getElem?_getD, List.getElem?_eq_getElem hgl,
      Option.getD_some]
  · intro el u v p n acc f1 hle hp
    simp only [toggleLockAux]
    rw [if_neg (Nat.not_lt.mpr hle)]
    simp [hp]

/-- C8 witness: a two-thread normal return is fully accounted for, and a
poisoned lock at iteration `0` faults the run. -/
theorem failures_propagate_witness :
    (([((0 : ℕ), (2 : ℕ)), (0, 2)] : List (ℕ × ℕ)).length = 2 ∧
      (∀ i, i < 2 →
        toggleLockRes (fun n => n) (fun _ => 0) (fun _ => 0) (fun _ => false) 1 3 =
          RunRes.ok (([((0 : ℕ), (2 : ℕ)), (0, 2)] : List (ℕ × ℕ)).getD i (0, 0)))) ∧
      toggleLockAux (fun _ => 0) (fun _ => 0) (fun _ => 0) (fun _ => true) 1
        (0 + 1) 0 0 0 = RunRes.fault :=
  ⟨(failures_propagate (fun _ n => n) (fun _ _ => 0) (fun _ _ => 0)
      (fun _ _ => false) 1 3 2 [(0, 2), (0, 2)]).1
      (by simp [toggle_lock_parallel, toggleLockRes, toggle_lock, toggleLockAux,
        intervalTasks_zero, joinAll, List.range_succ]),
    (failures_propagate (fun _ n => n) (fun _ _ => 0) (fun _ _ => 0)
      (fun _ _ => false) 1 3 2 [(0, 2), (0, 2)]).2
      (fun _ => 0) (fun _ => 0) (fun _ => 0) (fun _ => true) 0 0 0
      (by norm_num) rfl⟩

/-- C7 counterexample: on a concrete run the Holding-phase iteration emits
draw and increment BEFORE the lock acquisition, so the order the claim
states (acquire first, increment after the burst) does not hold. -/
theorem holding_order_cex :
    toggle_lock (fun n => n) (fun _ => 0) (fun _ => 0) (fun _ => false) 1 3 =
        RunRes.ok (0, 2,
          [Ev.timeCheck 0 0] ++ holdingBlock 0 ++ [Ev.timeCheck 1 1] ++
            releasedBlock 0 ++ [Ev.timeCheck 0 2]) ∧
      holdingBlock 0 =
        [Ev.draw true 0, Ev.incr 0, Ev.acquire, Ev.setAction 1, Ev.release] ∧
      holdingBlock 0 ≠ specHoldingBlock 0 := by
  refine ⟨?_, by decide, by decide⟩
  simp [toggle_lock, toggleLockAux, intervalTasks_zero, holdingBlock, releasedBlock]

/-- C7 amended: in every Holding-phase iteration that passes the budget
check (with an un-poisoned lock and a normally terminating run), the steps
occur in this order: draw `tasks` from the unlock sampler, increment the
work counter by `tasks`, acquire the lock, perform `tasks` work units,
transition to Released, and release the lock as the scoped guard drops at
the end of the arm. -/
theorem holding_order (elapsed : ℕ → ℕ) (su sl : ℕ → ℚ) (pois : ℕ → Bool)
    (limit fuel n acc w e : ℕ) (tr : List Ev)
    (hbudget : ¬ limit < elapsed n)
    (hrun : toggleLockAux elapsed su sl pois limit (fuel + 1) n acc 0 =
      RunRes.ok (w, e, tr)) :
    ∃ rest, tr = Ev.timeCheck 0 (elapsed n) ::
      Ev.draw true (intervalTasks (su n)) :: Ev.incr (intervalTasks (su n)) ::
      Ev.acquire :: (List.replicate (intervalTasks (su n)) Ev.work ++
        [Ev.setAction 1, Ev.release] ++ rest) := by
  simp only [toggleLockAux] at hrun
  rw [if_neg hbudget] at hrun
  cases hp : pois n
  · simp only [hp] at hrun
    cases hrec : toggleLockAux elapsed su sl pois limit fuel (n + 1)
        (acc + intervalTasks (su n)) 1 with
    | ok r =>
      obtain ⟨w', e', tr'⟩ := r
      rw [hrec] at hrun
      simp only [Bool.false_eq_true, if_false] at hrun
      simp at hrun
      obtain ⟨-, -, htr⟩ := hrun
      refine ⟨tr', ?_⟩
      rw [← htr]
      simp [holdingBlock, List.append_assoc]
    | fault => rw [hrec] at hrun; simp at hrun
    | unreach => rw [hrec] at hrun; simp at hrun
    | noFuel => rw [hrec] at hrun; simp at hrun
  · simp [hp] at hrun

/-- C7 amended witness on the concrete run of the counterexample. -/
theorem holding_order_witness :
    (¬ (1 : ℕ) < (fun n : ℕ => n) 0) ∧
      ∃ rest, ([Ev.timeCheck 0 0] ++ holdingBlock 0 ++ [Ev.timeCheck 1 1] ++
          releasedBlock 0 ++ [Ev.timeCheck 0 2]) =
        Ev.timeCheck 0 ((fun n : ℕ => n) 0) ::
          Ev.draw true (intervalTasks ((fun _ : ℕ => (0 : ℚ)) 0)) ::
          Ev.incr (intervalTasks ((fun _ : ℕ => (0 : ℚ)) 0)) ::
          Ev.acquire ::
          (List.replicate (intervalTasks ((fun _ : ℕ => (0 : ℚ)) 0)) Ev.work ++
            [Ev.setAction 1, Ev.release] ++ rest) :=
  ⟨by norm_num,
    holding_order (fun n => n) (fun _ => 0) (fun _ => 0) (fun _ => false)
      1 2 0 0 0 2
      ([Ev.timeCheck 0 0] ++ holdingBlock 0 ++ [Ev.timeCheck 1 1] ++
        releasedBlock 0 ++ [Ev.timeCheck 0 2])
      (by norm_num)
      (by simp [toggle_lock, toggleLockAux, intervalTasks_zero, holdingBlock,
        releasedBlock])⟩

lemma lockScan_replicate_work :
    ∀ (t : ℕ) (tr : List Ev) (held : Bool) (p : ℕ), (p = 0 ∨ held = false) →
      lockScan (List.replicate t Ev.work ++ tr) held p = lockScan tr held p := by
  intro t
  induction t with
  | zero => intro tr held p _; simp
  | succ t ih =>
    intro tr held p hp
    rw [List.replicate_succ, List.cons_append]
    rcases hp with rfl | rfl
    · simp [lockScan, ih tr held 0 (Or.inl rfl)]
    · simp [lockScan, ih tr false p (Or.inr rfl)]

lemma lockScan_run (elapsed : ℕ → ℕ) (su sl : ℕ → ℚ) (pois : ℕ → Bool)
    (limit : ℕ) :
    ∀ (fuel n acc a w e : ℕ) (tr : List Ev), (a = 0 ∨ a = 1) →
      toggleLockAux elapsed su sl pois limit fuel n acc a = RunRes.ok (w, e, tr) →
      ∀ p, lockScan tr false p = true := by
  intro fuel
  induction fuel with
  | zero => intro n acc a w e tr _ hrun; cases hrun
  | succ fuel ih =>
    intro n acc a w e tr ha hrun p
    by_cases hb : limit < elapsed n
    · simp only [toggleLockAux] at hrun
      rw [if_pos hb] at hrun
      simp at hrun
      obtain ⟨-, -, htr⟩ := hrun
      rw [← htr]
      simp [lockScan]
    · rcases ha with rfl | rfl
      · simp only [toggleLockAux] at hrun
        rw [if_neg hb] at hrun
        cases hp : pois n
        · simp only [hp] at hrun
          cases hrec : toggleLockAux elapsed su sl pois limit fuel (n + 1)
              (acc + intervalTasks (su n)) 1 with
          | ok r =>
            obtain ⟨w', e', tr'⟩ := r
            rw [hrec] at hrun
            simp only [Bool.false_eq_true, if_false] at hrun
            simp at hrun
            obtain ⟨-, -, htr⟩ := hrun
            have htail := ih (n + 1) (acc + intervalTasks (su n)) 1 w' e' tr'
              (Or.inr rfl) hrec
            rw [← htr]
            simp [lockScan, holdingBlock, List.append_assoc,
              lockScan_replicate_work, htail]
          | fault => rw [hrec] at hrun; simp at hrun
          | unreach => rw [hrec] at hrun; simp at hrun
          | noFuel => rw [hrec] at hrun; simp at hrun
        · simp [hp] at hrun
      · simp only [toggleLockAux] at hrun
        rw [if_neg hb] at hrun
        cases hrec : toggleLockAux elapsed su sl pois limit fuel (n + 1)
            (acc + intervalTasks (sl n)) 0 with
        | ok r =>
          obtain ⟨w', e', tr'⟩ := r
          rw [hrec] at hrun
          simp at hrun
          obtain ⟨-, -, htr⟩ := hrun
          have htail := ih (n + 1) (acc + intervalTasks (sl n)) 0 w' e' tr'
            (Or.inl rfl) hrec
          rw [← htr]
          simp [lockScan, releasedBlock, List.append_assoc,
            lockScan_replicate_work, htail]
        | fault => rw [hrec] at hrun; simp at hrun
        | unreach => rw [hrec] at hrun; simp at hrun
        | noFuel => rw [hrec] at hrun; simp at hrun

/-- C9: on every normally terminating run, the lock discipline holds: the
lock is acquired and released strictly within a single Holding-phase
iteration, is never held when a budget check (an iteration boundary) runs,
and is never held during any Released-phase event. -/
theorem lock_scoped_per_iteration (elapsed : ℕ → ℕ) (su sl : ℕ → ℚ)
    (pois : ℕ → Bool) (limit fuel w e : ℕ) (tr : List Ev)
    (hrun : toggle_lock elapsed su sl pois limit fuel = RunRes.ok (w, e, tr)) :
    lockScan tr false 0 = true :=
  lockScan_run elapsed su sl pois limit fuel 0 0 0 w e tr (Or.inl rfl) hrun 0

/-- C9 witness on the concrete two-phase run. -/
theorem lock_scoped_per_iteration_witness :
    lockScan
      ([Ev.timeCheck 0 0] ++ holdingBlock 0 ++ [Ev.timeCheck 1 1] ++
        releasedBlock 0 ++ [Ev.timeCheck 0 2]) false 0 = true :=
  lock_scoped_per_iteration (fun n => n) (fun _ => 0) (fun _ => 0)
    (fun _ => false) 1 3 0 2 _
    (by simp [toggle_lock, toggleLockAux, intervalTasks_zero, holdingBlock,
      releasedBlock])

/-- C10: starting from any phase value in `{0, 1}` — in particular from the
initial `action = 0`, each iteration flipping to the other value — the
`unreachable!()` arm of the match is never executed. -/
theorem unreachable_arm_unused (elapsed : ℕ → ℕ) (su sl : ℕ → ℚ)
    (pois : ℕ → Bool) (limit : ℕ) :
    ∀ fuel n acc a : ℕ, (a = 0 ∨ a = 1) →
      toggleLockAux elapsed su sl pois limit fuel n acc a ≠ RunRes.unreach := by
  intro fuel
  induction fuel with
  | zero => intro n acc a _; simp [toggleLockAux]
  | succ fuel ih =>
    intro n acc a ha
    by_cases hb : limit < elapsed n
    · simp [toggleLockAux, hb]
    · rcases ha with rfl | rfl
      · simp only [toggleLockAux]
        rw [if_neg hb]
        cases hp : pois n
        · cases hrec : toggleLockAux elapsed su sl pois limit fuel (n + 1)
              (acc + intervalTasks (su n)) 1 with
          | ok r => obtain ⟨w, e, tr⟩ := r; simp [hp, hrec]
          | fault => simp [hp, hrec]
          | unreach => exact absurd hrec (ih (n + 1) _ 1 (Or.inr rfl))
          | noFuel => simp [hp, hrec]
        · simp [hp]
      · simp only [toggleLockAux]
        rw [if_neg hb]
        cases hrec : toggleLockAux elapsed su sl pois limit fuel (n + 1)
            (acc + intervalTasks (sl n)) 0 with
        | ok r => obtain ⟨w, e, tr⟩ := r; simp [hrec]
        | fault => simp [hrec]
        | unreach => exact absurd hrec (ih (n + 1) _ 0 (Or.inl rfl))
        | noFuel => simp [hrec]

/-- C10 witness at the entry point of `toggle_lock` (`action = 0`). -/
theorem unreachable_arm_unused_witness :
    toggleLockAux (fun n => n) (fun _ => 0) (fun _ => 0) (fun _ => false)
      1 3 0 0 0 ≠ RunRes.unreach :=
  unreachable_arm_unused (fun n => n) (fun _ => 0) (fun _ => 0) (fun _ => false)
    1 3 0 0 0 (Or.inl rfl)

end LockContention
